import Mathlib

/-!
# Verification of the multi-fidelity BO engine core

Shallow embedding, in Lean 4, of the decision-loop core of the
`multique_fidelity_spark` repository: the BOHB successive-halving
scheduler, the acquisition function EI, the transfer-learning surrogate
weight machinery (MFGPE / RGPE with dilution), the advisor sampling
loops, the evaluator manager's failure handling and the SQL partitioner's
multi-fidelity subset selection.

Python floats are modelled by `ℚ` (all operations exercised by the claims
are field operations and comparisons, exact on the inputs used);
`float('inf')` objectives are modelled by an explicit tagged value.
NumPy `argsort`/`argmin` are modelled by stable sorts / first-minimum,
matching NumPy on tie-free inputs (every concrete input used below is
tie-free where it matters, except where a tie is the point being made).
-/

namespace MFSpark

/-! ## Rounding helper

`round(x, 5)` from Python. Python uses round-half-even on binary doubles;
no value appearing in the claims is a tie at the 5-decimal grid and every
such value rounds in double precision to the same 5-decimal grid point as
its exact rational counterpart, so the half-up `round` of Mathlib on `ℚ`
is an exact model on the inputs in play. -/
def round5 (q : ℚ) : ℚ := (round (q * 100000) : ℤ) / 100000

/-! ## Stable ascending sort by key

Python's `sorted` and (on tie-free data) NumPy's `argsort`, modelled by a
stable insertion sort: later elements are inserted after earlier ones of
equal key. -/

def sortByKey {α K : Type} [LinearOrder K] (key : α → K) (l : List α) : List α :=
  l.insertionSort (fun a b => key a ≤ key b)

/-! ## Scheduler (src/libs/framework/Optimizer/scheduler/{base,fidelity}.py)

`BOHBFidelityScheduler.__init__` computes
  `s_max   = int(log(R)/log(eta))`
  `B       = (s_max + 1) * R`
  `s_values = list(reversed(range(s_max + 1)))`
  `fidelity_levels = [round(x / R, 5) for x in logspace(0, s_max, base=eta)]`.
`int(log R / log eta)` is the floor of the exact base-`eta` logarithm for
every pair of integers `2 ≤ eta`, `eta ≤ R` used in the claims (the float
quotient is exact at `R = 9, eta = 3` and rounds inside the same integer
at `R = 10, eta = 3`); it is modelled by `Nat.log`. -/

/-- `calculate_resource_ratio`: `round(n_resource / R, 5)`. -/
def calculateResourceRatio (R : ℕ) (nResource : ℤ) : ℚ :=
  round5 ((nResource : ℚ) / R)

/-! ## Expected Improvement (src/libs/framework/Advisor/acq_function/ei.py)

`ExpectedImprovement._compute`, per input point.  The standard normal cdf
`Φ` and pdf `φ` come from `scipy.stats.norm`, external to the repository,
so the computation is parameterized over the pair of functions applied at
`z`; `std` is the predicted standard deviation (`sqrt` of the model's
variance), `eta` is `None` exactly when no observation has been made. -/
def eiCompute (Phi phi : ℚ → ℚ) (eta : Option ℚ) (par mean std : ℚ) : ℚ :=
  match eta with
  | none => 0
  | some e =>
    let z := (e - mean - par) / (std + 1/1000000000)
    let ei := (e - mean - par) * Phi z + std * phi z
    if std < 1/1000000000 then 0 else ei

/-- The EI formula as the claim words it, with `z = (η−μ−par)/max(σ, 1e-9)`
(for comparison against `eiCompute`). -/
def eiSpecFormula (Phi phi : ℚ → ℚ) (eta par mean std : ℚ) : ℚ :=
  let z := (eta - mean - par) / max std (1/1000000000)
  (eta - mean - par) * Phi z + std * phi z

/-! ## Warm start guard (src/libs/framework/Advisor/BO.py, BO.warm_start)

The body delegates configuration generation to the warm starter
(src/Advisor/warm_start.py); the generated list is a parameter here.  The
code returns immediately — leaving `ini_configs` untouched — when
`ws_strategy == 'none' or tl_strategy == 'none'`; otherwise it prepends
the warm-start configurations. -/
def warmStart {α : Type} (wsStrategy tlStrategy : String)
    (wsConfigs iniConfigs : List α) : List α :=
  if wsStrategy = "none" ∨ tlStrategy = "none" then iniConfigs
  else wsConfigs ++ iniConfigs

/-! ## Evaluator manager (src/libs/framework/Evaluator/executor.py) and
observation building (src/libs/framework/Advisor/utils.py, src/Advisor/base.py)

`float('inf')` objectives are a tagged value.  The worker body
`try: result = evaluator(...) except: result = default finally: …put(idx)`
is a match on the evaluator's outcome (`error` = the evaluator raised;
`ok none` = it returned `None`); the Boolean records that the `finally`
block re-enqueued the slot index, which every branch of the model does. -/

inductive ObjVal
  | fin (q : ℚ)
  | inf
deriving DecidableEq

structure EvalResult where
  objective : ObjVal
  timeout : Bool
  traceback : Option String
  elapsedTime : ℚ
  extraInfo : List (String × String)
deriving DecidableEq

/-- `_create_default_result`. -/
def createDefaultResult (elapsed : ℚ) : EvalResult :=
  ⟨ObjVal.inf, true, none, elapsed, []⟩

def evaluatorManagerCall (outcome : Except String (Option EvalResult))
    (elapsed : ℚ) : EvalResult × Bool :=
  match outcome with
  | Except.error _ => (createDefaultResult elapsed, true)
  | Except.ok none => (createDefaultResult elapsed, true)
  | Except.ok (some r) => (r, true)

inductive TrialState
  | success
  | timeout
  | failed
deriving DecidableEq

structure ObservationRec (γ : Type) where
  config : γ
  objectives : List ObjVal
  trialState : TrialState
  elapsedTime : ℚ
deriving DecidableEq

/-- `build_observation`: TIMEOUT if the timeout flag is set, FAILED if a
traceback is present, else SUCCESS. -/
def buildObservation {γ : Type} (config : γ) (r : EvalResult) : ObservationRec γ :=
  { config := config
    objectives := [r.objective]
    trialState := if r.timeout then TrialState.timeout
                  else if r.traceback ≠ none then TrialState.failed
                  else TrialState.success
    elapsedTime := r.elapsedTime }

/-- `BaseAdvisor.update`: no-op unless the `update` flag holds, else append
the built observation to the history. -/
def advisorUpdate {γ : Type} (doUpdate : Bool) (hist : List (ObservationRec γ))
    (obs : ObservationRec γ) : List (ObservationRec γ) :=
  if doUpdate then hist ++ [obs] else hist

/-! ## Transfer-learning ensemble weights
(src/libs/framework/Advisor/surrogate/base.py)

The per-call calculator output (`new_w`, split into its source prefix and
target entry) is a parameter: `TransferLearningSurrogate.train` obtains it
from the weight calculator, then passes it through `_modify_weights` and
`_record_weights`.  With fewer than `k_fold_num` observations it instead
sets uniform weights, leaving `current_target_weight` and the recorded
trajectory untouched. -/

/-- `_modify_weights` for `num_tasks ≥ 1`: weight vector = source prefix
`srcW` plus target entry `tgtW`; returns the new vector and the new
`current_target_weight`. -/
def modifyWeights (srcW : List ℚ) (tgtW ctw : ℚ) : List ℚ × ℚ :=
  if tgtW < ctw then
    let S := srcW.sum
    if 0 < S then (srcW.map (fun x => x / S * (1 - ctw)), ctw)
    else (srcW, ctw)
  else (srcW, tgtW)

structure TrainInput where
  lenY : ℕ
  newSrcW : List ℚ
  newTgtW : ℚ

structure TLTrainState where
  srcW : List ℚ
  tgtW : ℚ
  ctw : ℚ
  recorded : List ℚ

/-- One `train` call (weight part), for `K ≥ 1` source tasks. -/
def tlTrainStep (K kFold : ℕ) (st : TLTrainState) (c : TrainInput) : TLTrainState :=
  if c.lenY ≥ kFold then
    let p := modifyWeights c.newSrcW c.newTgtW st.ctw
    ⟨p.1, p.2, p.2, st.recorded ++ [p.2]⟩
  else
    ⟨List.replicate K ((1 : ℚ) / (K + 1)), (1 : ℚ) / (K + 1), st.ctw, st.recorded⟩

/-- A sequence of `train` calls from the constructor state
(`w = [1.0]`, `current_target_weight = 0`, `target_weight = []`). -/
def tlTrainRun (K kFold : ℕ) (inputs : List TrainInput) : TLTrainState :=
  inputs.foldl (tlTrainStep K kFold) ⟨[], 1, 0, []⟩

/-! ## Spark configuration validation and advisor sampling
(src/libs/framework/Advisor/validation.py, src/Advisor/base.py,
src/libs/framework/Advisor/BO.py)

A configuration is its two constrained typed values plus an opaque index
standing for all remaining hyperparameter values (configurations are equal
iff all typed values are equal; `origin` tags do not enter equality). -/

structure SparkConfig where
  execCores : ℤ
  taskCpus : ℤ
  rest : ℕ
deriving DecidableEq

/-- `SparkConfigValidation.is_valid`. -/
def isValidSpark (c : SparkConfig) : Bool :=
  c.execCores ≥ c.taskCpus && c.execCores ≥ 1 && c.taskCpus ≥ 1

/-- `SparkConfigValidation.sanitize`: the clamps land in local variables;
the configuration itself is only modified when the clamped values satisfy
`exec_cores < task_cpus`, in which case `spark.task.cpus` is set. -/
def sanitizeSpark (c : SparkConfig) : SparkConfig :=
  let ec := max c.execCores 1
  let tc := max c.taskCpus 1
  if ec < tc then { c with taskCpus := ec } else c

/-- The loop body of `BaseAdvisor.sample_random_configs`: `supply t` is the
configuration produced by `sampling_strategy.sample(1)[0]` on trial `t`
(the strategy's RNG stream); fuel counts the remaining trials. -/
def srcLoop (supply : ℕ → SparkConfig) (numConfigs : ℕ)
    (excluded : List SparkConfig) :
    ℕ → ℕ → List SparkConfig → List SparkConfig
  | 0, _, configs => configs
  | fuel + 1, trials, configs =>
    if configs.length ≥ numConfigs then configs
    else
      let s := supply trials
      let s' := if isValidSpark s then s else sanitizeSpark s
      if isValidSpark s' then
        if s' ∉ configs ∧ s' ∉ excluded then
          srcLoop supply numConfigs excluded fuel (trials + 1) (configs ++ [s'])
        else srcLoop supply numConfigs excluded fuel (trials + 1) configs
      else srcLoop supply numConfigs excluded fuel (trials + 1) configs

/-- `BaseAdvisor.sample_random_configs` with
`max_trials = max(100, num_configs * 20)`. -/
def sampleRandomConfigs (supply : ℕ → SparkConfig) (numConfigs : ℕ)
    (excluded : List SparkConfig) : List SparkConfig :=
  srcLoop supply numConfigs excluded (max 100 (numConfigs * 20)) 0 []

/-- The challenger loop of `BO.sample` (post-initialization): skip
challengers already in the history, sanitize invalid ones, append while
the batch is short.  Appended configurations are never compared against
the batch itself. -/
def challengerLoop (history : List SparkConfig) (batchSize : ℕ) :
    List SparkConfig → List SparkConfig → List SparkConfig
  | [], batch => batch
  | c :: rest, batch =>
    if batch.length ≥ batchSize then batch
    else if c ∈ history then challengerLoop history batchSize rest batch
    else
      let c' := if isValidSpark c then c else sanitizeSpark c
      if isValidSpark c' then challengerLoop history batchSize rest (batch ++ [c'])
      else challengerLoop history batchSize rest batch

/-- The surrogate-phase batch construction of `BO.sample`: up to 2
warm-start configurations (BOHB/MFES only), then challengers, then a
random fill excluding `history + batch`. -/
def sampleSurrogateBatch (isBohbOrMF : Bool)
    (iniConfigs history challengers : List SparkConfig)
    (supply : ℕ → SparkConfig) (batchSize : ℕ) : List SparkConfig :=
  let q := if isBohbOrMF ∧ iniConfigs ≠ [] then
      min 2 (min batchSize iniConfigs.length) else 0
  let wsPart := iniConfigs.reverse.take q
  let afterChal := challengerLoop history batchSize challengers wsPart
  if afterChal.length < batchSize then
    afterChal ++ sampleRandomConfigs supply (batchSize - afterChal.length)
      (history ++ afterChal)
  else afterChal

/-! ## RGPE weights with dilution
(src/libs/framework/Advisor/surrogate/weight.py,
src/Advisor/surrogate/utils.py)

`sampled d i` stands for the Monte-Carlo draw `np.random.normal(mu_list[i],
var_list[i])` of draw `d` for task `i` (the RNG stream is a parameter of
the embedding; everything downstream of the draws is computed).  The
percentile index `int(num_sample * 0.95)` is modelled by `numSample * 95
/ 100`, exact at the default `num_sample = 50` used by the claims, and
`int(num_sample * 0.5)` by `numSample / 2`, exact for every `num_sample`. -/

/-- `calculate_preserving_order_num`: `(order_preserving_num, total_pair_num)`
over index pairs `idx < inner`. -/
def preservingOrderNum (yPred yTrue : List ℚ) : ℕ × ℕ :=
  match yPred, yTrue with
  | p :: ps, t :: ts =>
    let rest := preservingOrderNum ps ts
    let here := (ps.zip ts).countP
      (fun q => decide (t > q.2) == decide (p > q.1))
    (rest.1 + here, rest.2 + (ps.zip ts).length)
  | _, _ => (0, 0)

/-- `pair_num - preorder_num`. -/
def rankLoss (yPred yTrue : List ℚ) : ℕ :=
  (preservingOrderNum yPred yTrue).2 - (preservingOrderNum yPred yTrue).1

/-- The `ranking_loss_caches` matrix: one row per draw, `num_tasks`
columns, last column the target (replaced by `instance_num²` when
`instance_num < k_fold_num`). -/
def rankLossMatrix (sampled : ℕ → ℕ → List ℚ) (yTrue : List ℚ)
    (numSample numTasks instanceNum kFold : ℕ) : List (List ℕ) :=
  (List.range numSample).map (fun d =>
    ((List.range (numTasks - 1)).map (fun i => rankLoss (sampled d i) yTrue)) ++
      [if instanceNum ≥ kFold then rankLoss (sampled d (numTasks - 1)) yTrue
       else instanceNum * instanceNum])

/-- `np.argmin`: index of the first minimum. -/
def argminIdx (l : List ℕ) : ℕ :=
  match l.min? with
  | none => 0
  | some m => l.findIdx (fun v => v == m)

/-- `argmin_list` after the Monte-Carlo loop: per task, the number of
draws whose row attains its first minimum at that task. -/
def argminCounts (M : List (List ℕ)) (numTasks : ℕ) : List ℕ :=
  (List.range numTasks).map (fun i => M.countP (fun row => argminIdx row == i))

/-- Sorted column `i` of the rank-loss matrix. -/
def sortedColumn (M : List (List ℕ)) (i : ℕ) : List ℕ :=
  sortByKey id (M.map (fun row => row.getD i 0))

/-- The `ignored_flags` of `calculate_with_dilution`: per source, median
rank loss (sorted-column entry `int(num_sample·0.5)`) strictly above the
target's `int(num_sample·0.95)` percentile; the target entry is
`only_source`. -/
def dilutionFlags (M : List (List ℕ)) (numSample numTasks : ℕ)
    (onlySource : Bool) : List Bool :=
  ((List.range (numTasks - 1)).map (fun i =>
      decide ((sortedColumn M i).getD (numSample / 2) 0 >
        (sortedColumn M (numTasks - 1)).getD (numSample * 95 / 100) 0))) ++
    [onlySource]

/-- The argmin-frequency weights `w` with flagged sources zeroed
(the target entry is never zeroed). -/
def dilutionZeroedWeights (M : List (List ℕ)) (numSample numTasks : ℕ)
    (flags : List Bool) : List ℚ :=
  (List.range numTasks).map (fun i =>
    if i < numTasks - 1 ∧ flags.getD i false then (0 : ℚ)
    else ((argminCounts M numTasks).map
      (fun (c : ℕ) => (c : ℚ) / numSample)).getD i 0)

/-- `RGPEWeightCalculator.calculate_with_dilution`: returns the weight
vector and the ignored flags. -/
def calculateWithDilution (sampled : ℕ → ℕ → List ℚ) (yTrue : List ℚ)
    (numSample numTasks instanceNum kFold : ℕ) (onlySource : Bool) :
    List ℚ × List Bool :=
  let M := rankLossMatrix sampled yTrue numSample numTasks instanceNum kFold
  let flags := dilutionFlags M numSample numTasks onlySource
  let wz := dilutionZeroedWeights M numSample numTasks flags
  let final :=
    if wz.sum = 0 then
      if onlySource then
        List.replicate (numTasks - 1) ((1 : ℚ) / (numTasks - 1)) ++ [0]
      else List.replicate (numTasks - 1) (0 : ℚ) ++ [1]
    else wz.map (fun x => x / wz.sum)
  (final, flags)

/-- True objective values for the RGPE dilution scenario: 14 points so
that rank losses up to `C(14,2) = 91` are realizable. -/
def rgpeYTrue : List ℚ := [1,2,3,4,5,6,7,8,9,10,11,12,13,14]

/-- Permutations of `rgpeYTrue` with exactly 20, 50, 80 and 91 inversions
(= rank loss against the increasing `rgpeYTrue`). -/
def rgpeL20 : List ℚ := [5,4,3,2,1,10,9,8,7,6,11,12,13,14]

def rgpeL50 : List ℚ := [10,9,8,7,6,5,4,3,2,1,14,13,11,12]

def rgpeL80 : List ℚ := [13,12,11,10,9,8,7,6,5,4,3,14,2,1]

def rgpeL91 : List ℚ := [14,13,12,11,10,9,8,7,6,5,4,3,2,1]

/-- 50 Monte-Carlo draws over tasks (source A, source B, target) realizing
the claim's dilution scenario: source A has median rank loss 20, source B
has median 80, the target's 95th-percentile rank loss is 50. -/
def rgpeScenarioSampled : ℕ → ℕ → List ℚ := fun d i =>
  if i = 0 then (if d < 26 then rgpeL20 else rgpeL91)
  else if i = 1 then rgpeL80
  else if d < 26 then rgpeL50 else if d < 40 then rgpeYTrue
  else if d < 48 then rgpeL50 else rgpeL91

/-- Two draws over one source and the target exhibiting the `only_source`
renormalization behaviour. -/
def rgpeCexYTrue : List ℚ := [1, 2]

def rgpeCexSampled : ℕ → ℕ → List ℚ := fun d i =>
  if d = 0 then (if i = 0 then [2, 1] else [1, 2])
  else (if i = 0 then [1, 2] else [2, 1])

/-! ## Partition plan (src/extensions/spark/calculate.py,
src/extensions/spark/partitioner.py)

Sub-task (SQL) identifiers are drawn from a linearly ordered type with
decidable equality (standing for the lexicographically ordered SQL name
strings).  The per-sub-task statistics `(estimated_time, correlation)`
and the pairwise redundancy score — computed by
`compute_weighted_sql_statistics` / `compute_query_similarity` from the
aggregated pandas DataFrame — are parameters of the embedding. -/

end MFSpark

namespace MFSpark

/-! ## Theorems -/

/-- C2 (counterexample): `_compute` divides by `std + 1e-9`, not by
`max(std, 1e-9)`: at `η = 1`, `μ = 0`, `par = 0`, `σ = 1` the code's
argument of `Φ` is `1/(1+1e-9)` while the claim's is `1`, so the two
expressions differ (exhibited at the function pair `Φ = id`, `φ = 0`;
with the strictly increasing Gaussian `Φ` the arguments differ as well). -/
theorem ei_divisor_counterexample :
    eiCompute id (fun _ => 0) (some 1) 0 0 1 = 1000000000/1000000001 ∧
    eiSpecFormula id (fun _ => 0) 1 0 0 1 = 1 ∧
    eiCompute id (fun _ => 0) (some 1) 0 0 1 ≠ eiSpecFormula id (fun _ => 0) 1 0 0 1 := by
  refine ⟨?_, ?_, ?_⟩ <;> norm_num [eiCompute, eiSpecFormula]

/-- C2 (amended): `_compute` returns `(η−μ−par)·Φ(z) + σ·φ(z)` with
`z = (η−μ−par)/(σ + 1e-9)` (the divisor is `σ + 1e-9`, not
`max(σ, 1e-9)`); the result is exactly 0 whenever `σ < 1e-9`, and 0 for
every point when the incumbent `η` is unset. -/
theorem ei_compute_amended :
    (∀ (Phi phi : ℚ → ℚ) (par mean std : ℚ),
      eiCompute Phi phi none par mean std = 0) ∧
    (∀ (Phi phi : ℚ → ℚ) (eta par mean std : ℚ), std < 1/1000000000 →
      eiCompute Phi phi (some eta) par mean std = 0) ∧
    (∀ (Phi phi : ℚ → ℚ) (eta par mean std : ℚ), ¬ std < 1/1000000000 →
      eiCompute Phi phi (some eta) par mean std =
        (eta - mean - par) * Phi ((eta - mean - par) / (std + 1/1000000000)) +
          std * phi ((eta - mean - par) / (std + 1/1000000000))) := by
  refine ⟨fun _ _ _ _ _ => rfl, ?_, ?_⟩
  · intro Phi phi eta par mean std h
    rw [one_div] at h
    simp [eiCompute, h]
  · intro Phi phi eta par mean std h
    rw [one_div] at h
    simp [eiCompute, h]

/-- Witness for `ei_compute_amended`: both guarded conjuncts applied at
concrete inputs (`σ = 0 < 1e-9`, and `σ = 1 ≥ 1e-9`). -/
theorem ei_compute_amended_witness :
    eiCompute id (fun _ => 0) (some 1) 0 0 0 = 0 ∧
    eiCompute (fun _ => 1) (fun _ => 1) (some 2) 0 0 1 =
      (2 - 0 - 0) * 1 + 1 * 1 := by
  constructor
  · exact ei_compute_amended.2.1 id (fun _ => 0) 1 0 0 0 (by norm_num)
  · simpa using ei_compute_amended.2.2 (fun _ => 1) (fun _ => 1) 2 0 0 1 (by norm_num)

/-- C9 (counterexample): `warm_start` returns without touching
`ini_configs` whenever either strategy is `'none'`: with
`ws_strategy = 'best_all'`, `tl_strategy = 'none'` and a nonempty
warm-start list, the queue stays empty although the strategies are not
both `'none'`. -/
theorem warm_start_guard_counterexample :
    warmStart "best_all" "none" [0] ([] : List ℕ) = [] ∧
    ¬ ("best_all" = "none" ∧ "none" = "none") := by
  constructor
  · simp [warmStart]
  · simp

/-- C9 (amended): for a nonempty warm-starter output, `warm_start` leaves
`ini_configs` unchanged exactly when `ws_strategy = 'none'` OR
`tl_strategy = 'none'`; otherwise it prepends the warm-start
configurations. -/
theorem warm_start_guard_amended :
    ∀ (ws tl : String) (wsConfigs ini : List ℕ), wsConfigs ≠ [] →
      ((warmStart ws tl wsConfigs ini = ini ↔ (ws = "none" ∨ tl = "none")) ∧
       (¬ (ws = "none" ∨ tl = "none") →
         warmStart ws tl wsConfigs ini = wsConfigs ++ ini)) := by
  intro ws tl wsc ini hne
  unfold warmStart
  by_cases h : ws = "none" ∨ tl = "none"
  · simp [h]
  · rw [if_neg h]
    refine ⟨⟨fun heq => ?_, fun h' => absurd h' h⟩, fun _ => rfl⟩
    exfalso
    have hlen := congrArg List.length heq
    rw [List.length_append] at hlen
    exact hne (List.length_eq_zero.mp (by omega))

/-- Witness for `warm_start_guard_amended`: with both strategies enabled
the queue is populated by prepending. -/
theorem warm_start_guard_amended_witness :
    warmStart "best_all" "mce" [7] ([3] : List ℕ) = [7, 3] := by
  have h := (warm_start_guard_amended "best_all" "mce" [7] [3] (by simp)).2
      (by simp)
  simpa using h

/-- C7: an evaluator exception never propagates out of
`EvaluatorManager.__call__`: the call returns the default record
`{objective: +∞, timeout: true, traceback: None, elapsed_time, extra_info: {}}`,
the slot index is re-enqueued on every exit path of the worker (`finally`),
and feeding the record through `build_observation` and `update` appends a
TIMEOUT observation with objective +∞ to the history. -/
theorem evaluator_failure_contained :
    (∀ (outcome : Except String (Option EvalResult)) (elapsed : ℚ),
      (evaluatorManagerCall outcome elapsed).2 = true) ∧
    (∀ (e : String) (elapsed : ℚ),
      (evaluatorManagerCall (Except.error e) elapsed).1 =
        createDefaultResult elapsed ∧
      createDefaultResult elapsed =
        ⟨ObjVal.inf, true, none, elapsed, []⟩) ∧
    (∀ (e : String) (elapsed : ℚ) (cfg : ℕ) (hist : List (ObservationRec ℕ)),
      (buildObservation cfg (evaluatorManagerCall (Except.error e) elapsed).1).trialState
          = TrialState.timeout ∧
      (buildObservation cfg (evaluatorManagerCall (Except.error e) elapsed).1).objectives
          = [ObjVal.inf] ∧
      advisorUpdate true hist
          (buildObservation cfg (evaluatorManagerCall (Except.error e) elapsed).1) =
        hist ++ [buildObservation cfg (evaluatorManagerCall (Except.error e) elapsed).1]) := by
  refine ⟨?_, ?_, ?_⟩
  · rintro (e | (_ | r)) elapsed <;> rfl
  · intro e elapsed
    exact ⟨rfl, rfl⟩
  · intro e elapsed cfg hist
    exact ⟨rfl, rfl, rfl⟩

theorem sum_map_div_scale (l : List ℚ) (S c : ℚ) :
    (l.map (fun x => x / S * c)).sum = l.sum / S * c := by
  induction l with
  | nil => simp
  | cons h t ih =>
    simp only [List.map_cons, List.sum_cons, ih]
    ring

theorem tlTrainStep_preserves (K kFold : ℕ) (st : TLTrainState) (c : TrainInput)
    (hnn : ∀ x ∈ c.newSrcW, 0 ≤ x) (htnn : 0 ≤ c.newTgtW)
    (hsum : c.newSrcW.sum + c.newTgtW = 1)
    (h1 : ∀ x ∈ st.srcW, 0 ≤ x) (h2 : st.srcW.sum + st.tgtW = 1)
    (h3 : 0 ≤ st.tgtW) (h4 : 0 ≤ st.ctw) (h5 : st.ctw ≤ 1)
    (h6 : st.recorded.Chain' (· ≤ ·))
    (h7 : ∀ y, st.recorded.getLast? = some y → y ≤ st.ctw) :
    (∀ x ∈ (tlTrainStep K kFold st c).srcW, 0 ≤ x) ∧
    (tlTrainStep K kFold st c).srcW.sum + (tlTrainStep K kFold st c).tgtW = 1 ∧
    0 ≤ (tlTrainStep K kFold st c).tgtW ∧
    0 ≤ (tlTrainStep K kFold st c).ctw ∧ (tlTrainStep K kFold st c).ctw ≤ 1 ∧
    (tlTrainStep K kFold st c).recorded.Chain' (· ≤ ·) ∧
    (∀ y, (tlTrainStep K kFold st c).recorded.getLast? = some y →
      y ≤ (tlTrainStep K kFold st c).ctw) := by
  unfold tlTrainStep
  by_cases hcv : c.lenY ≥ kFold
  · rw [if_pos hcv]
    unfold modifyWeights
    have hsrc_nonneg : (0:ℚ) ≤ c.newSrcW.sum := List.sum_nonneg hnn
    have htgt_le : c.newTgtW ≤ 1 := by linarith
    by_cases hlt : c.newTgtW < st.ctw
    · rw [if_pos hlt]
      have hS : 0 < c.newSrcW.sum := by linarith
      rw [if_pos hS]
      simp only
      refine ⟨?_, ?_, h4, h4, h5, ?_, ?_⟩
      · intro x hx
        obtain ⟨a, ha, rfl⟩ := List.mem_map.mp hx
        have := hnn a ha
        have h1c : (0:ℚ) ≤ 1 - st.ctw := by linarith
        positivity
      · rw [sum_map_div_scale, div_self hS.ne']
        ring
      · rw [List.chain'_append]
        refine ⟨h6, List.chain'_singleton _, ?_⟩
        intro x hx y hy
        simp only [List.head?_cons, Option.mem_def, Option.some.injEq] at hy
        subst hy
        exact h7 x hx
      · intro y hy
        rw [List.getLast?_concat] at hy
        injection hy with hy
        exact le_of_eq hy.symm
    · rw [if_neg hlt]
      push_neg at hlt
      simp only
      refine ⟨hnn, hsum, htnn, htnn, htgt_le, ?_, ?_⟩
      · rw [List.chain'_append]
        refine ⟨h6, List.chain'_singleton _, ?_⟩
        intro x hx y hy
        simp only [List.head?_cons, Option.mem_def, Option.some.injEq] at hy
        subst hy
        exact le_trans (h7 x hx) hlt
      · intro y hy
        rw [List.getLast?_concat] at hy
        injection hy with hy
        exact le_of_eq hy.symm
  · rw [if_neg hcv]
    simp only
    have hK1 : (0:ℚ) < (K:ℚ) + 1 := by positivity
    refine ⟨?_, ?_, by positivity, h4, h5, h6, h7⟩
    · intro x hx
      rw [List.eq_of_mem_replicate hx]
      positivity
    · rw [List.sum_replicate, nsmul_eq_mul]
      field_simp

theorem tl_fold_inv (K kFold : ℕ) (inputs : List TrainInput)
    (hins : ∀ inp ∈ inputs, (∀ x ∈ inp.newSrcW, 0 ≤ x) ∧
      0 ≤ inp.newTgtW ∧ inp.newSrcW.sum + inp.newTgtW = 1) :
    ∀ st : TLTrainState,
      (∀ x ∈ st.srcW, 0 ≤ x) → st.srcW.sum + st.tgtW = 1 → 0 ≤ st.tgtW →
      0 ≤ st.ctw → st.ctw ≤ 1 → st.recorded.Chain' (· ≤ ·) →
      (∀ y, st.recorded.getLast? = some y → y ≤ st.ctw) →
      ((∀ x ∈ (inputs.foldl (tlTrainStep K kFold) st).srcW, 0 ≤ x) ∧
       (inputs.foldl (tlTrainStep K kFold) st).srcW.sum +
         (inputs.foldl (tlTrainStep K kFold) st).tgtW = 1 ∧
       0 ≤ (inputs.foldl (tlTrainStep K kFold) st).tgtW ∧
       0 ≤ (inputs.foldl (tlTrainStep K kFold) st).ctw ∧
       (inputs.foldl (tlTrainStep K kFold) st).ctw ≤ 1 ∧
       (inputs.foldl (tlTrainStep K kFold) st).recorded.Chain' (· ≤ ·) ∧
       (∀ y, (inputs.foldl (tlTrainStep K kFold) st).recorded.getLast? = some y →
         y ≤ (inputs.foldl (tlTrainStep K kFold) st).ctw)) := by
  induction inputs with
  | nil =>
    intro st h1 h2 h3 h4 h5 h6 h7
    exact ⟨h1, h2, h3, h4, h5, h6, h7⟩
  | cons c rest ih =>
    intro st h1 h2 h3 h4 h5 h6 h7
    have hc := hins c (List.mem_cons_self c rest)
    have hstep := tlTrainStep_preserves K kFold st c hc.1 hc.2.1 hc.2.2
      h1 h2 h3 h4 h5 h6 h7
    rw [List.foldl_cons]
    exact ih (fun inp hinp => hins inp (List.mem_cons_of_mem c hinp)) _
      hstep.1 hstep.2.1 hstep.2.2.1 hstep.2.2.2.1 hstep.2.2.2.2.1
      hstep.2.2.2.2.2.1 hstep.2.2.2.2.2.2

/-- C1: across every sequence of `train` calls with at least one source
task (each call's calculator output being a proper weight vector), the
ensemble weight vector stays entrywise in [0, 1] and sums to 1 within
1e-9 (exactly, in fact), the recorded target-weight trajectory is
monotonically non-decreasing, and whenever a call's new target weight is
smaller than the recorded `current_target_weight`, `_modify_weights`
resets it to that value and rescales the source weights to sum to
`1 − target weight`. -/
theorem tl_train_weight_invariants :
    (∀ (K kFold : ℕ) (inputs : List TrainInput), 1 ≤ K →
      (∀ inp ∈ inputs, (∀ x ∈ inp.newSrcW, 0 ≤ x) ∧
        0 ≤ inp.newTgtW ∧ inp.newSrcW.sum + inp.newTgtW = 1) →
      (∀ x ∈ (tlTrainRun K kFold inputs).srcW, 0 ≤ x ∧ x ≤ 1) ∧
      (0 ≤ (tlTrainRun K kFold inputs).tgtW ∧ (tlTrainRun K kFold inputs).tgtW ≤ 1) ∧
      |(tlTrainRun K kFold inputs).srcW.sum + (tlTrainRun K kFold inputs).tgtW - 1|
        ≤ 1/1000000000 ∧
      (tlTrainRun K kFold inputs).recorded.Chain' (· ≤ ·)) ∧
    (∀ (srcW : List ℚ) (tgtW ctw : ℚ), (∀ x ∈ srcW, 0 ≤ x) →
      srcW.sum + tgtW = 1 → ctw ≤ 1 → tgtW < ctw →
      (modifyWeights srcW tgtW ctw).2 = ctw ∧
      (modifyWeights srcW tgtW ctw).1.sum = 1 - ctw) := by
  constructor
  · intro K kFold inputs _ hins
    unfold tlTrainRun
    have h := tl_fold_inv K kFold inputs hins ⟨[], 1, 0, []⟩
      (by intro x hx; simp at hx) (by simp) (by norm_num) le_rfl (by norm_num)
      List.chain'_nil (by intro y hy; simp at hy)
    obtain ⟨i1, i2, i3, _, _, i6, _⟩ := h
    have hsum_nn : (0:ℚ) ≤
        (List.foldl (tlTrainStep K kFold) ⟨[], 1, 0, []⟩ inputs).srcW.sum :=
      List.sum_nonneg i1
    refine ⟨?_, ⟨i3, by linarith⟩, ?_, i6⟩
    · intro x hx
      refine ⟨i1 x hx, ?_⟩
      have hle := List.single_le_sum i1 x hx
      linarith
    · rw [i2]
      norm_num
  · intro srcW tgtW ctw hnn hsum hctw hlt
    unfold modifyWeights
    rw [if_pos hlt]
    have hsrc_nonneg : (0:ℚ) ≤ srcW.sum := List.sum_nonneg hnn
    have hS : 0 < srcW.sum := by linarith
    rw [if_pos hS]
    exact ⟨rfl, by rw [sum_map_div_scale, div_self hS.ne']; ring⟩

/-- Witness for `tl_train_weight_invariants`: a two-call run (the second
call's target weight 1/10 drops below the recorded 1/4 and is reset) and
the reset rule at `srcW = [9/10]`, `tgtW = 1/10`, `ctw = 1/4`. -/
theorem tl_train_weight_invariants_witness :
    ((tlTrainRun 1 5 [⟨5, [3/4], 1/4⟩, ⟨6, [9/10], 1/10⟩]).recorded.Chain' (· ≤ ·)) ∧
    (modifyWeights [9/10] (1/10) (1/4)).2 = 1/4 ∧
    (modifyWeights [9/10] (1/10) (1/4)).1.sum = 1 - 1/4 := by
  have h1 := (tl_train_weight_invariants.1 1 5 [⟨5, [3/4], 1/4⟩, ⟨6, [9/10], 1/10⟩]
    le_rfl (by
      intro inp hinp
      simp only [List.mem_cons, List.not_mem_nil, or_false] at hinp
      rcases hinp with rfl | rfl <;>
        exact ⟨by
          intro x hx
          simp only [List.mem_singleton] at hx
          subst hx
          norm_num, by norm_num, by norm_num⟩)).2.2.2
  have h2 := tl_train_weight_invariants.2 [9/10] (1/10) (1/4)
    (by
      intro x hx
      simp only [List.mem_singleton] at hx
      subst hx
      norm_num)
    (by norm_num) (by norm_num) (by norm_num)
  exact ⟨h1, h2.1, h2.2⟩

theorem srcLoop_spec (supply : ℕ → SparkConfig) (n : ℕ) (excl : List SparkConfig) :
    ∀ (fuel trials : ℕ) (configs : List SparkConfig),
      configs.length ≤ n → (∀ c ∈ configs, isValidSpark c = true) →
      configs.Nodup → (∀ c ∈ configs, c ∉ excl) →
      ((srcLoop supply n excl fuel trials configs).length ≤ n ∧
       (∀ c ∈ srcLoop supply n excl fuel trials configs, isValidSpark c = true) ∧
       (srcLoop supply n excl fuel trials configs).Nodup ∧
       (∀ c ∈ srcLoop supply n excl fuel trials configs, c ∉ excl)) := by
  intro fuel
  induction fuel with
  | zero =>
    intro trials configs hlen hval hnd hdisj
    exact ⟨hlen, hval, hnd, hdisj⟩
  | succ fuel ih =>
    intro trials configs hlen hval hnd hdisj
    rw [srcLoop]
    by_cases hfull : configs.length ≥ n
    · rw [if_pos hfull]
      exact ⟨hlen, hval, hnd, hdisj⟩
    · rw [if_neg hfull]
      simp only
      set s := supply trials with hs
      set s' := if isValidSpark s then s else sanitizeSpark s with hs'
      by_cases hv : isValidSpark s' = true
      · rw [if_pos hv]
        by_cases hmem : s' ∉ configs ∧ s' ∉ excl
        · rw [if_pos hmem]
          refine ih (trials + 1) (configs ++ [s']) ?_ ?_ ?_ ?_
          · rw [List.length_append, List.length_singleton]
            omega
          · intro c hc
            rcases List.mem_append.mp hc with h | h
            · exact hval c h
            · rw [List.mem_singleton.mp h]
              exact hv
          · rw [List.nodup_append]
            exact ⟨hnd, List.nodup_singleton _,
              by simpa [List.disjoint_singleton] using hmem.1⟩
          · intro c hc
            rcases List.mem_append.mp hc with h | h
            · exact hdisj c h
            · rw [List.mem_singleton.mp h]
              exact hmem.2
        · rw [if_neg hmem]
          exact ih (trials + 1) configs hlen hval hnd hdisj
      · rw [if_neg hv]
        exact ih (trials + 1) configs hlen hval hnd hdisj

theorem challengerLoop_mem (hist : List SparkConfig) (bs : ℕ) :
    ∀ (chal batch : List SparkConfig) (b : SparkConfig),
      b ∈ challengerLoop hist bs chal batch →
      b ∈ batch ∨ (isValidSpark b = true ∧
        ∃ c, c ∈ chal ∧ c ∉ hist ∧ (b = c ∨ b = sanitizeSpark c)) := by
  intro chal
  induction chal with
  | nil =>
    intro batch b hb
    exact Or.inl hb
  | cons c rest ih =>
    intro batch b hb
    rw [challengerLoop] at hb
    by_cases hfull : batch.length ≥ bs
    · rw [if_pos hfull] at hb
      exact Or.inl hb
    · rw [if_neg hfull] at hb
      by_cases hmem : c ∈ hist
      · rw [if_pos hmem] at hb
        rcases ih batch b hb with h | ⟨hv, c', hc', hnh, heq⟩
        · exact Or.inl h
        · exact Or.inr ⟨hv, c', List.mem_cons_of_mem c hc', hnh, heq⟩
      · rw [if_neg hmem] at hb
        simp only at hb
        set c' := if isValidSpark c then c else sanitizeSpark c with hcdef
        by_cases hv : isValidSpark c' = true
        · rw [if_pos hv] at hb
          rcases ih (batch ++ [c']) b hb with h | ⟨hv', c'', hc'', hnh, heq⟩
          · rcases List.mem_append.mp h with h' | h'
            · exact Or.inl h'
            · rw [List.mem_singleton.mp h']
              refine Or.inr ⟨hv, c, List.mem_cons_self c rest, hmem, ?_⟩
              rw [hcdef]
              by_cases hvc : isValidSpark c
              · rw [if_pos hvc]
                exact Or.inl rfl
              · rw [if_neg hvc]
                exact Or.inr rfl
          · exact Or.inr ⟨hv', c'', List.mem_cons_of_mem c hc'', hnh, heq⟩
        · rw [if_neg hv] at hb
          rcases ih batch b hb with h | ⟨hv', c'', hc'', hnh, heq⟩
          · exact Or.inl h
          · exact Or.inr ⟨hv', c'', List.mem_cons_of_mem c hc'', hnh, heq⟩

/-- C10: `sample_random_configs` returns at most `num_configs`
configurations, each valid, pairwise distinct and disjoint from
`excluded_configs`; the trial bound `max(100, 20·num_configs)` lets it
return strictly fewer (e.g. when the sampler only produces an invalid
configuration), and consequently the surrogate-phase batch of `BO.sample`
can come back shorter than the requested batch size. -/
theorem sample_random_configs_bounded :
    (∀ (supply : ℕ → SparkConfig) (n : ℕ) (excl : List SparkConfig),
      (sampleRandomConfigs supply n excl).length ≤ n ∧
      (∀ c ∈ sampleRandomConfigs supply n excl, isValidSpark c = true) ∧
      (sampleRandomConfigs supply n excl).Nodup ∧
      (∀ c ∈ sampleRandomConfigs supply n excl, c ∉ excl)) ∧
    (∃ (supply : ℕ → SparkConfig) (n : ℕ) (excl : List SparkConfig),
      (sampleRandomConfigs supply n excl).length < n) ∧
    (∃ (hist chal : List SparkConfig) (supply : ℕ → SparkConfig) (bs : ℕ),
      (sampleSurrogateBatch false [] hist chal supply bs).length < bs) := by
  refine ⟨?_, ?_, ?_⟩
  · intro supply n excl
    exact srcLoop_spec supply n excl _ 0 [] (by simp) (by simp) List.nodup_nil
      (by simp)
  · exact ⟨fun _ => ⟨0, 0, 0⟩, 1, [], by decide⟩
  · exact ⟨[⟨2, 1, 0⟩], [⟨2, 1, 0⟩], fun _ => ⟨0, 0, 0⟩, 1, by decide⟩

/-- C6 (counterexample): the challenger loop checks candidates against the
history only, never against the batch under construction: a challenger
list containing the same valid configuration twice yields a batch with
`batch[0] == batch[1]`. -/
theorem sample_batch_duplicate_counterexample :
    sampleSurrogateBatch false [] [] [⟨2, 1, 0⟩, ⟨2, 1, 0⟩]
      (fun _ => ⟨2, 1, 0⟩) 2 = [⟨2, 1, 0⟩, ⟨2, 1, 0⟩] ∧
    ¬ (sampleSurrogateBatch false [] [] [⟨2, 1, 0⟩, ⟨2, 1, 0⟩]
      (fun _ => ⟨2, 1, 0⟩) 2).Nodup := by
  constructor <;> decide

/-- C6 (amended): every batch member taken from the challenger list is
valid and derives (identically or through sanitization) from a challenger
that was not in the history; when the batch is short, the remainder is a
random fill that is pairwise distinct, valid, and disjoint from the
history and from the challenger part.  Duplicate challengers (or
sanitized challengers colliding with the history or the batch) are not
rejected. -/
theorem sample_batch_amended :
    ∀ (hist chal : List SparkConfig) (supply : ℕ → SparkConfig) (bs : ℕ),
      (∀ b ∈ challengerLoop hist bs chal [], isValidSpark b = true ∧
        ∃ c, c ∈ chal ∧ c ∉ hist ∧ (b = c ∨ b = sanitizeSpark c)) ∧
      (sampleSurrogateBatch false [] hist chal supply bs =
        if (challengerLoop hist bs chal []).length < bs then
          challengerLoop hist bs chal [] ++
            sampleRandomConfigs supply (bs - (challengerLoop hist bs chal []).length)
              (hist ++ challengerLoop hist bs chal [])
        else challengerLoop hist bs chal []) ∧
      ((sampleRandomConfigs supply (bs - (challengerLoop hist bs chal []).length)
          (hist ++ challengerLoop hist bs chal [])).Nodup ∧
       (∀ c ∈ sampleRandomConfigs supply (bs - (challengerLoop hist bs chal []).length)
          (hist ++ challengerLoop hist bs chal []),
         isValidSpark c = true ∧ c ∉ hist ∧ c ∉ challengerLoop hist bs chal [])) := by
  intro hist chal supply bs
  refine ⟨?_, ?_, ?_, ?_⟩
  · intro b hb
    rcases challengerLoop_mem hist bs chal [] b hb with h | h
    · simp at h
    · exact h
  · rfl
  · exact (srcLoop_spec supply _ _ _ 0 [] (by simp) (by simp) List.nodup_nil
      (by simp)).2.2.1
  · intro c hc
    have h := srcLoop_spec supply (bs - (challengerLoop hist bs chal []).length)
      (hist ++ challengerLoop hist bs chal [])
      (max 100 ((bs - (challengerLoop hist bs chal []).length) * 20)) 0 []
      (by simp) (by simp) List.nodup_nil (by simp)
    have hdisj := h.2.2.2 c hc
    have hval := h.2.1 c hc
    rw [List.mem_append] at hdisj
    push_neg at hdisj
    exact ⟨hval, hdisj.1, hdisj.2⟩

/-- Witness for `sample_batch_amended`: the challenger-derivation conjunct
applied to the single member of a concrete batch. -/
theorem sample_batch_amended_witness :
    isValidSpark ⟨2, 1, 0⟩ = true ∧
    ∃ c, c ∈ [(⟨2, 1, 0⟩ : SparkConfig)] ∧ c ∉ ([] : List SparkConfig) ∧
      ((⟨2, 1, 0⟩ : SparkConfig) = c ∨ (⟨2, 1, 0⟩ : SparkConfig) = sanitizeSpark c) := by
  exact (sample_batch_amended [] [⟨2, 1, 0⟩] (fun _ => ⟨2, 1, 0⟩) 1).1
    ⟨2, 1, 0⟩ (by decide)

theorem getD_append_left {α : Type} (l l' : List α) (d : α) (n : ℕ)
    (h : n < l.length) : (l ++ l').getD n d = l.getD n d := by
  rw [List.getD_eq_getElem?_getD, List.getD_eq_getElem?_getD,
    List.getElem?_append, if_pos h]

theorem getD_append_len {α : Type} (l : List α) (a d : α) :
    (l ++ [a]).getD l.length d = a := by
  rw [List.getD_eq_getElem?_getD, List.getElem?_append_right le_rfl]
  simp

theorem getD_map_range {β : Type} (f : ℕ → β) (n i : ℕ) (d : β) (h : i < n) :
    ((List.range n).map f).getD i d = f i := by
  rw [List.getD_eq_getElem?_getD, List.getElem?_map, List.getElem?_range h]
  rfl

theorem sum_map_div (l : List ℚ) (s : ℚ) :
    (l.map (fun x => x / s)).sum = l.sum / s := by
  induction l with
  | nil => simp
  | cons h t ih =>
    simp only [List.map_cons, List.sum_cons, ih]
    ring

theorem dilutionZeroedWeights_nonneg (M : List (List ℕ))
    (numSample numTasks : ℕ) (flags : List Bool) :
    ∀ y ∈ dilutionZeroedWeights M numSample numTasks flags, 0 ≤ y := by
  intro y hy
  obtain ⟨i, _, rfl⟩ := List.mem_map.mp hy
  by_cases hcond : i < numTasks - 1 ∧ flags.getD i false
  · rw [if_pos hcond]
  · rw [if_neg hcond, List.getD_eq_getElem?_getD]
    cases hg : ((argminCounts M numTasks).map
        (fun (c : ℕ) => (c : ℚ) / numSample))[i]? with
    | none => simp
    | some v =>
      obtain ⟨c, _, rfl⟩ := List.mem_map.mp (List.getElem?_mem hg)
      simp only [Option.getD_some]
      positivity

/-- `np.argmin` returns the first index attaining the minimum. -/
theorem argminIdx_spec (row : List ℕ) (m : ℕ) (hm : row.min? = some m) :
    argminIdx row < row.length ∧ row.getD (argminIdx row) 0 = m ∧
    ∀ j < argminIdx row, row.getD j 0 ≠ m := by
  have hmem : m ∈ row := List.min?_mem (fun a b => min_choice a b) hm
  have hex : ∃ x ∈ row, (x == m) = true := ⟨m, hmem, beq_self_eq_true m⟩
  have hidx : argminIdx row = row.findIdx (fun v => v == m) := by
    unfold argminIdx
    rw [hm]
  have hlt : row.findIdx (fun v => v == m) < row.length :=
    List.findIdx_lt_length_of_exists hex
  refine ⟨hidx ▸ hlt, ?_, ?_⟩
  · rw [hidx, List.getD_eq_getElem?_getD, List.getElem?_eq_getElem hlt]
    simpa using List.findIdx_getElem (w := hlt)
  · intro j hj
    rw [hidx] at hj
    have hjlen : j < row.length := lt_trans hj hlt
    have hfalse : (fun v => v == m) row[j] = false := List.not_of_lt_findIdx hj
    rw [List.getD_eq_getElem?_getD, List.getElem?_eq_getElem hjlen]
    simpa using hfalse

/-- C5 (amended): RGPE dilution, everything downstream of the Monte-Carlo
draws (the draws themselves are the `sampled` parameter).  A source task
is flagged ignored iff its median rank loss strictly exceeds the target's
95th-percentile rank loss; the target is flagged iff `only_source`; each
draw is credited to the first task attaining the draw's minimum rank
loss; the final weight vector — in which flagged sources are zeroed but
the target weight is retained even when flagged — is nonnegative and sums
to 1 (uniform-over-sources or all-mass-on-target fallback when everything
is zero).  In the claim's scenario (median losses 20 and 80 for sources A
and B, target 95th-percentile 50) A is kept, B is zeroed and the target
weight is renormalized together with A's. -/
theorem rgpe_dilution_amended :
    (∀ (sampled : ℕ → ℕ → List ℚ) (yTrue : List ℚ)
       (numSample numTasks instanceNum kFold : ℕ) (onlySource : Bool),
      1 ≤ numTasks →
      (∀ i, i < numTasks - 1 →
        ((calculateWithDilution sampled yTrue numSample numTasks instanceNum
            kFold onlySource).2.getD i false = true ↔
          (sortedColumn (rankLossMatrix sampled yTrue numSample numTasks
              instanceNum kFold) i).getD (numSample / 2) 0 >
            (sortedColumn (rankLossMatrix sampled yTrue numSample numTasks
              instanceNum kFold) (numTasks - 1)).getD (numSample * 95 / 100) 0)) ∧
      ((calculateWithDilution sampled yTrue numSample numTasks instanceNum
          kFold onlySource).2.getD (numTasks - 1) false = onlySource) ∧
      (∀ row ∈ rankLossMatrix sampled yTrue numSample numTasks instanceNum kFold,
        ∃ m, row.min? = some m ∧ argminIdx row < row.length ∧
          row.getD (argminIdx row) 0 = m ∧ ∀ j < argminIdx row, row.getD j 0 ≠ m) ∧
      ((2 ≤ numTasks ∨ onlySource = false) →
        (calculateWithDilution sampled yTrue numSample numTasks instanceNum
          kFold onlySource).1.sum = 1) ∧
      (∀ x ∈ (calculateWithDilution sampled yTrue numSample numTasks instanceNum
          kFold onlySource).1, 0 ≤ x) ∧
      (∀ i, i < numTasks - 1 →
        (calculateWithDilution sampled yTrue numSample numTasks instanceNum
            kFold onlySource).2.getD i false = true →
        ((calculateWithDilution sampled yTrue numSample numTasks instanceNum
            kFold onlySource).1.getD i 0 = 0 ∨ onlySource = true))) ∧
    calculateWithDilution rgpeScenarioSampled rgpeYTrue 50 3 14 5 false =
      ([13/24, 0, 11/24], [false, true, false]) := by
  constructor
  · intro sampled yTrue ns nt inum kf os hnt
    have hflagsLen : ((List.range (nt - 1)).map (fun i =>
        decide ((sortedColumn (rankLossMatrix sampled yTrue ns nt inum kf) i).getD
          (ns / 2) 0 > (sortedColumn (rankLossMatrix sampled yTrue ns nt inum kf)
          (nt - 1)).getD (ns * 95 / 100) 0))).length = nt - 1 := by
      rw [List.length_map, List.length_range]
    have hsnd : (calculateWithDilution sampled yTrue ns nt inum kf os).2 =
        dilutionFlags (rankLossMatrix sampled yTrue ns nt inum kf) ns nt os := rfl
    have hfst : (calculateWithDilution sampled yTrue ns nt inum kf os).1 =
        (if (dilutionZeroedWeights (rankLossMatrix sampled yTrue ns nt inum kf)
            ns nt (dilutionFlags (rankLossMatrix sampled yTrue ns nt inum kf)
            ns nt os)).sum = 0 then
          (if os then List.replicate (nt - 1) ((1 : ℚ) / (nt - 1)) ++ [0]
           else List.replicate (nt - 1) (0 : ℚ) ++ [1])
        else (dilutionZeroedWeights (rankLossMatrix sampled yTrue ns nt inum kf)
            ns nt (dilutionFlags (rankLossMatrix sampled yTrue ns nt inum kf)
            ns nt os)).map
          (fun x => x / (dilutionZeroedWeights (rankLossMatrix sampled yTrue ns
            nt inum kf) ns nt (dilutionFlags (rankLossMatrix sampled yTrue ns nt
            inum kf) ns nt os)).sum)) := rfl
    refine ⟨?_, ?_, ?_, ?_, ?_, ?_⟩
    · intro i hi
      rw [hsnd]
      unfold dilutionFlags
      rw [getD_append_left _ _ _ _ (by rw [hflagsLen]; exact hi),
        getD_map_range _ _ _ _ hi]
      exact decide_eq_true_iff
    · rw [hsnd]
      unfold dilutionFlags
      have h := getD_append_len ((List.range (nt - 1)).map (fun i =>
        decide ((sortedColumn (rankLossMatrix sampled yTrue ns nt inum kf) i).getD
          (ns / 2) 0 > (sortedColumn (rankLossMatrix sampled yTrue ns nt inum kf)
          (nt - 1)).getD (ns * 95 / 100) 0))) os false
      rw [hflagsLen] at h
      exact h
    · intro row hrow
      obtain ⟨d, _, rfl⟩ := List.mem_map.mp hrow
      have hne : ((List.range (nt - 1)).map (fun i =>
          rankLoss (sampled d i) yTrue)) ++
          [if inum ≥ kf then rankLoss (sampled d (nt - 1)) yTrue
           else inum * inum] ≠ [] := by simp
      cases hmin : (((List.range (nt - 1)).map (fun i =>
          rankLoss (sampled d i) yTrue)) ++
          [if inum ≥ kf then rankLoss (sampled d (nt - 1)) yTrue
           else inum * inum]).min? with
      | none => exact absurd (List.min?_eq_none_iff.mp hmin) hne
      | some m =>
        obtain ⟨h1, h2, h3⟩ := argminIdx_spec _ m hmin
        exact ⟨m, rfl, h1, h2, h3⟩
    · intro hcase
      rw [hfst]
      by_cases hz : (dilutionZeroedWeights (rankLossMatrix sampled yTrue ns nt
          inum kf) ns nt (dilutionFlags (rankLossMatrix sampled yTrue ns nt inum
          kf) ns nt os)).sum = 0
      · rw [if_pos hz]
        cases os with
        | false =>
          rw [if_neg (by simp)]
          simp [List.sum_append, List.sum_replicate]
        | true =>
          rw [if_pos rfl]
          have hnt2 : 2 ≤ nt := by
            rcases hcase with h | h
            · exact h
            · exact absurd h (by simp)
          have hpos : (0 : ℚ) < (nt : ℚ) - 1 := by
            have : (2 : ℚ) ≤ (nt : ℚ) := by exact_mod_cast hnt2
            linarith
          have hnat : ((nt - 1 : ℕ) : ℚ) = (nt : ℚ) - 1 := by
            have h1 : 1 ≤ nt := hnt
            push_cast [Nat.cast_sub h1]
            ring
          rw [List.sum_append, List.sum_replicate, nsmul_eq_mul, hnat]
          rw [List.sum_cons, List.sum_nil]
          field_simp
      · rw [if_neg hz, sum_map_div, div_self hz]
    · intro x hx
      rw [hfst] at hx
      by_cases hz : (dilutionZeroedWeights (rankLossMatrix sampled yTrue ns nt
          inum kf) ns nt (dilutionFlags (rankLossMatrix sampled yTrue ns nt inum
          kf) ns nt os)).sum = 0
      · rw [if_pos hz] at hx
        cases os with
        | false =>
          rw [if_neg (by simp)] at hx
          rcases List.mem_append.mp hx with h | h
          · rw [List.eq_of_mem_replicate h]
          · rw [List.mem_singleton.mp h]
            norm_num
        | true =>
          rw [if_pos rfl] at hx
          rcases List.mem_append.mp hx with h | h
          · obtain ⟨hne, rfl⟩ := List.mem_replicate.mp h
            have hpos : (0 : ℚ) < (nt : ℚ) - 1 := by
              have : (2 : ℚ) ≤ (nt : ℚ) := by exact_mod_cast
                (by omega : 2 ≤ nt)
              linarith
            exact div_nonneg (by norm_num) hpos.le
          · rw [List.mem_singleton.mp h]
      · rw [if_neg hz] at hx
        obtain ⟨y, hy, rfl⟩ := List.mem_map.mp hx
        have hynn := dilutionZeroedWeights_nonneg _ _ _ _ y hy
        have hsnn : (0:ℚ) ≤ (dilutionZeroedWeights (rankLossMatrix sampled yTrue
            ns nt inum kf) ns nt (dilutionFlags (rankLossMatrix sampled yTrue ns
            nt inum kf) ns nt os)).sum :=
          List.sum_nonneg (dilutionZeroedWeights_nonneg _ _ _ _)
        exact div_nonneg hynn hsnn
    · intro i hi hflag
      rw [hsnd] at hflag
      rw [hfst]
      by_cases hz : (dilutionZeroedWeights (rankLossMatrix sampled yTrue ns nt
          inum kf) ns nt (dilutionFlags (rankLossMatrix sampled yTrue ns nt inum
          kf) ns nt os)).sum = 0
      · rw [if_pos hz]
        cases os with
        | false =>
          rw [if_neg (by simp)]
          refine Or.inl ?_
          rw [getD_append_left _ _ _ _ (by rw [List.length_replicate]; exact hi),
            List.getD_eq_getElem?_getD, List.getElem?_replicate, if_pos hi]
          rfl
        | true => exact Or.inr rfl
      · rw [if_neg hz]
        refine Or.inl ?_
        have hlen : i < (dilutionZeroedWeights (rankLossMatrix sampled yTrue ns
            nt inum kf) ns nt (dilutionFlags (rankLossMatrix sampled yTrue ns nt
            inum kf) ns nt os)).length := by
          unfold dilutionZeroedWeights
          rw [List.length_map, List.length_range]
          omega
        rw [List.getD_eq_getElem?_getD, List.getElem?_map,
          List.getElem?_eq_getElem hlen]
        have hwz0 : (dilutionZeroedWeights (rankLossMatrix sampled yTrue ns nt
            inum kf) ns nt (dilutionFlags (rankLossMatrix sampled yTrue ns nt
            inum kf) ns nt os)).getD i 0 = 0 := by
          unfold dilutionZeroedWeights
          rw [getD_map_range _ _ _ _ (by omega), if_pos ⟨hi, hflag⟩]
        rw [List.getD_eq_getElem?_getD, List.getElem?_eq_getElem hlen] at hwz0
        simp only [Option.getD_some] at hwz0
        rw [hwz0]
        simp
  · have hwz : dilutionZeroedWeights
        (rankLossMatrix rgpeScenarioSampled rgpeYTrue 50 3 14 5) 50 3
        (dilutionFlags (rankLossMatrix rgpeScenarioSampled rgpeYTrue 50 3 14 5)
          50 3 false) = [26/50, 0, 22/50] := by
      have hcounts : argminCounts
          (rankLossMatrix rgpeScenarioSampled rgpeYTrue 50 3 14 5) 3 =
          [26, 2, 22] := by decide
      have hflags : dilutionFlags
          (rankLossMatrix rgpeScenarioSampled rgpeYTrue 50 3 14 5) 50 3 false =
          [false, true, false] := by decide
      unfold dilutionZeroedWeights
      rw [hcounts, hflags, show List.range 3 = [0, 1, 2] from rfl]
      norm_num
    refine Prod.ext ?_ (by decide)
    have hfst : (calculateWithDilution rgpeScenarioSampled rgpeYTrue 50 3 14 5
        false).1 =
        (if (dilutionZeroedWeights
            (rankLossMatrix rgpeScenarioSampled rgpeYTrue 50 3 14 5) 50 3
            (dilutionFlags (rankLossMatrix rgpeScenarioSampled rgpeYTrue 50 3 14
              5) 50 3 false)).sum = 0 then
          List.replicate (3 - 1) (0 : ℚ) ++ [1]
        else (dilutionZeroedWeights
            (rankLossMatrix rgpeScenarioSampled rgpeYTrue 50 3 14 5) 50 3
            (dilutionFlags (rankLossMatrix rgpeScenarioSampled rgpeYTrue 50 3 14
              5) 50 3 false)).map
          (fun x => x / (dilutionZeroedWeights
            (rankLossMatrix rgpeScenarioSampled rgpeYTrue 50 3 14 5) 50 3
            (dilutionFlags (rankLossMatrix rgpeScenarioSampled rgpeYTrue 50 3 14
              5) 50 3 false)).sum)) := rfl
    rw [hfst, hwz]
    norm_num

/-- C5 (counterexample): under `only_source` the target's raw weight is
not zeroed, so the *non-ignored* weights do not renormalize to 1: with
one source and raw weights (1/2, 1/2), no dilution and `only_source`,
the final vector is (1/2, 1/2) with flags (kept, ignored) — the
non-ignored mass is 1/2, not 1. -/
theorem rgpe_only_source_counterexample :
    (calculateWithDilution rgpeCexSampled rgpeCexYTrue 2 2 2 1 true).1 =
      [1/2, 1/2] ∧
    (calculateWithDilution rgpeCexSampled rgpeCexYTrue 2 2 2 1 true).2 =
      [false, true] ∧
    ¬ ((((List.range 2).filter (fun i =>
        (calculateWithDilution rgpeCexSampled rgpeCexYTrue 2 2 2 1 true).2.getD
          i false = false)).map (fun i =>
        (calculateWithDilution rgpeCexSampled rgpeCexYTrue 2 2 2 1 true).1.getD
          i 0)).sum = 1) := by
  have hflags : (calculateWithDilution rgpeCexSampled rgpeCexYTrue 2 2 2 1
      true).2 = [false, true] := by decide
  have hwz : dilutionZeroedWeights
      (rankLossMatrix rgpeCexSampled rgpeCexYTrue 2 2 2 1) 2 2
      (dilutionFlags (rankLossMatrix rgpeCexSampled rgpeCexYTrue 2 2 2 1) 2 2
        true) = [1/2, 1/2] := by
    have hcounts : argminCounts
        (rankLossMatrix rgpeCexSampled rgpeCexYTrue 2 2 2 1) 2 = [1, 1] := by
      decide
    have hf : dilutionFlags (rankLossMatrix rgpeCexSampled rgpeCexYTrue 2 2 2 1)
        2 2 true = [false, true] := by decide
    unfold dilutionZeroedWeights
    rw [hcounts, hf, show List.range 2 = [0, 1] from rfl]
    norm_num
  have hfst : (calculateWithDilution rgpeCexSampled rgpeCexYTrue 2 2 2 1
      true).1 =
      (if (dilutionZeroedWeights
          (rankLossMatrix rgpeCexSampled rgpeCexYTrue 2 2 2 1) 2 2
          (dilutionFlags (rankLossMatrix rgpeCexSampled rgpeCexYTrue 2 2 2 1) 2 2
            true)).sum = 0 then
        List.replicate (2 - 1) ((1 : ℚ) / (2 - 1)) ++ [0]
      else (dilutionZeroedWeights
          (rankLossMatrix rgpeCexSampled rgpeCexYTrue 2 2 2 1) 2 2
          (dilutionFlags (rankLossMatrix rgpeCexSampled rgpeCexYTrue 2 2 2 1) 2 2
            true)).map
        (fun x => x / (dilutionZeroedWeights
          (rankLossMatrix rgpeCexSampled rgpeCexYTrue 2 2 2 1) 2 2
          (dilutionFlags (rankLossMatrix rgpeCexSampled rgpeCexYTrue 2 2 2 1) 2 2
            true)).sum)) := rfl
  have hw : (calculateWithDilution rgpeCexSampled rgpeCexYTrue 2 2 2 1
      true).1 = [1/2, 1/2] := by
    rw [hfst, hwz]
    norm_num
  refine ⟨hw, hflags, ?_⟩
  rw [hflags, hw, show List.range 2 = [0, 1] from rfl]
  norm_num

/-- Witness for `rgpe_dilution_amended`: the sum-to-one conjunct and the
target-flag conjunct at a concrete two-task instance. -/
theorem rgpe_dilution_amended_witness :
    (calculateWithDilution rgpeCexSampled rgpeCexYTrue 2 2 2 1 false).1.sum = 1 ∧
    (calculateWithDilution rgpeCexSampled rgpeCexYTrue 2 2 2 1 false).2.getD 1
      false = false := by
  have h := rgpe_dilution_amended.1 rgpeCexSampled rgpeCexYTrue 2 2 2 1 false
    (by norm_num)
  exact ⟨h.2.2.2.1 (Or.inr rfl), h.2.1⟩

end MFSpark
